import Mathlib

/-!
# Verification of the maple reactive core

A shallow embedding of `maple-core/src/reactive.rs` (signals, effects,
selectors) and `maple-core/src/reactive/iter.rs` (the keyed and indexed
list reconcilers), with theorems settling the specification claims.

## The reactive engine (`reactive.rs`)

The engine is single-threaded, callback-driven mutable state:

* `SignalInner<T>` holds a value and an ordered subscriber list
  (`Vec<Callback>`); callbacks are compared by `Rc` pointer identity.
  We model callback identity as a `Nat` and signal identity as a `Nat`.
* The thread-local `CONTEXTS` stack of `Running` records (the effect
  currently executing, with the dependency list gathered in this run)
  becomes the `contexts : List Nat` field (head = innermost) plus
  `effDeps : Nat → List Nat` (each effect's `Running::dependencies`).
* Effect bodies are deeply embedded as `Code`/`Expr` so that the run /
  re-run protocol of `create_effect` (cleanup, push context, execute,
  subscribe, pop) can be interpreted over an explicit `World`.
* `RefCell` borrow state of a cell is the `borrowed` flag consulted by
  `Signal::set`'s `try_borrow_mut` (the `panic!("cannot create cyclic
  dependency")` branch, `Err.cyclic` here).  In the source every borrow
  taken by `get`/`get_untracked`/`subscribe` is released before control
  can reach `Signal::set`, so reads are modelled as atomic and the flag
  is never observed set — exactly mirroring the `RefCell` scoping.
* The interpreter `exec` is fuel-indexed (fuel is spent on every step)
  so it is structurally recursive and kernel-computable; `.error
  .fuelOut` for every fuel means the source recursion is unbounded.
* `trace` is observational instrumentation: one `Ev.invoke cb` per
  subscriber-callback invocation, one `Ev.derive m` per run of a
  selector's derivation closure.  The source has no counterpart; it only
  records which callbacks the interpreter ran, in order.
-/

/-- Observable events of a run: a subscriber callback invocation, or one
execution of a selector's `derived` closure. -/
inductive Ev where
  | invoke (cb : Nat)
  | derive (m : Nat)
  deriving DecidableEq, Repr

/-- The mutable world of the reactive engine: signal values and
subscriber lists, per-effect dependency records, the context stack of
running computations, the event trace, and the per-cell `RefCell` borrow
flag consulted by `Signal::set`. -/
structure World where
  sigVal : Nat → Nat
  sigSubs : Nat → List Nat
  effDeps : Nat → List Nat
  contexts : List Nat
  trace : List Ev
  borrowed : Nat → Bool

/-- Pointwise update of a `Nat`-indexed table. -/
def fupd (f : Nat → α) (i : Nat) (a : α) : Nat → α :=
  fun j => if j = i then a else f j

/-- Expressions occurring in effect bodies.  `getU` is
`StateHandle::get_untracked`, `getT` is the tracked `StateHandle::get`
(registers the signal with the innermost running computation). -/
inductive Expr where
  | lit (n : Nat)
  | getU (s : Nat)
  | getT (s : Nat)
  | add (a b : Expr)

/-- Statements of effect bodies.  `set s e` is `Signal::set`;
`selUpdate comp m e` is the re-run closure created by
`create_selector_with` (run `derived`, compare with the memo's current
value via `comparator`, `memo.set` only when the comparison is false). -/
inductive Code where
  | skip
  | seq (a b : Code)
  | doRead (e : Expr)
  | cif (cond : Expr) (c1 c2 : Code)
  | set (s : Nat) (e : Expr)
  | selUpdate (comp : Nat → Nat → Bool) (m : Nat) (e : Expr)

/-- A registered callback: `effect` is the `execute` closure built by
`create_effect` (full cleanup/track/subscribe protocol on every run);
`plain` is the bare `subscribe_callback` built by `create_effect_initial`
(simply runs its closure, no dependency tracking of its own). -/
inductive CbK where
  | plain (c : Code)
  | effect (c : Code)

/-- The body of a callback. -/
def bodyOf : CbK → Code
  | .plain c => c
  | .effect c => c

/-- Errors of the interpreter: spent fuel, or the
`panic!("cannot create cyclic dependency")` of `Signal::set`. -/
inductive Err where
  | fuelOut
  | cyclic
  deriving DecidableEq, Repr

/-- `StateHandle::get`'s dependency registration: if some computation is
running, add this signal to the innermost record unless already present
(the source compares by `Rc` pointer identity). -/
def trackDep (s : Nat) (w : World) : World :=
  match w.contexts with
  | [] => w
  | top :: _ =>
      if s ∈ w.effDeps top then w
      else { w with effDeps := fupd w.effDeps top (w.effDeps top ++ [s]) }

/-- Evaluate an expression; `getT` registers the dependency exactly as
`StateHandle::get` does before returning `get_untracked`'s value. -/
def evalExpr : Expr → World → World × Nat
  | .lit n, w => (w, n)
  | .getU s, w => (w, w.sigVal s)
  | .getT s, w => (trackDep s w, w.sigVal s)
  | .add a b, w =>
      let p := evalExpr a w
      let q := evalExpr b p.1
      (q.1, p.2 + q.2)

/-- `SignalInner::update`: store the new value (does not touch
subscribers). -/
def storeVal (s v : Nat) (w : World) : World :=
  { w with sigVal := fupd w.sigVal s v }

/-- `SignalInner::subscribe`: append the handler unless an identical one
is already present (`find` by pointer identity, then `push`). -/
def subOnce (cb : Nat) (l : List Nat) : List Nat :=
  if (l.find? (fun x => x == cb)).isSome then l else l ++ [cb]

/-- `SignalInner::unsubscribe` exactly as written in the source: the
subscriber list is replaced by its `filter` under the predicate
`subscriber == handler` — i.e. it RETAINS precisely the handler it was
asked to remove and drops every other subscriber.  (The doc comment in
the source says "Removes a handler from the subscriber list"; the
filter's polarity is inverted.  We embed the code, not the comment.) -/
def unsubscribe (cb : Nat) (l : List Nat) : List Nat :=
  l.filter (fun x => x == cb)

/-- One `dependency.unsubscribe(&execute)` call on signal `s`. -/
def unsubStep (cb : Nat) (acc : World) (s : Nat) : World :=
  { acc with sigSubs := fupd acc.sigSubs s (unsubscribe cb (acc.sigSubs s)) }

/-- One `dependency.subscribe(execute.clone())` call on signal `s`. -/
def subStep (cb : Nat) (acc : World) (s : Nat) : World :=
  { acc with sigSubs := fupd acc.sigSubs s (subOnce cb (acc.sigSubs s)) }

/-- `cleanup_running`: unsubscribe the effect's callback from every
dependency recorded during its last run, then clear the record. -/
def cleanupRun (cb : Nat) (w : World) : World :=
  let w1 := (w.effDeps cb).foldl (unsubStep cb) w
  { w1 with effDeps := fupd w1.effDeps cb [] }

/-- The subscribe loop after an effect body ran: subscribe the callback
to every dependency recorded in this run, in first-read order. -/
def subscribeDeps (cb : Nat) (w : World) : World :=
  (w.effDeps cb).foldl (subStep cb) w

/-- Push an event on the trace. -/
def pushEv (e : Ev) (w : World) : World :=
  { w with trace := w.trace ++ [e] }

/-- Push a running computation on the context stack. -/
def pushCtx (cb : Nat) (w : World) : World :=
  { w with contexts := cb :: w.contexts }

/-- Pop the context stack. -/
def popCtx (w : World) : World :=
  { w with contexts := w.contexts.tail }

/-- Interpreter tasks: run a code block, perform `Signal::set`'s
store-and-notify, notify a list of subscribers, or invoke one callback. -/
inductive RTask where
  | code (c : Code)
  | setv (s v : Nat)
  | cbs (l : List Nat)
  | cb (c : Nat)

/-- The fuel-indexed interpreter of the reactive engine.  Each case is a
direct transcription of the source:

* `.setv s v` is `Signal::set`: `try_borrow_mut` (fail with the cyclic
  panic when the cell is borrowed), `update`, clone the subscriber list,
  invoke each clone entry in order;
* `.cb cb` for an `effect` callback is `create_effect`'s `execute`
  closure: `cleanup_running`, push on `CONTEXTS`, run the body,
  subscribe to the recorded dependencies, pop;
* `.code (.selUpdate comp m e)` is `create_selector_with`'s re-run
  closure: run `derived`, compare the memo's current value with the new
  output, `memo.set` only when the comparator returns false. -/
def exec (env : Nat → CbK) : Nat → RTask → World → Except Err World
  | 0, _, _ => .error .fuelOut
  | _ + 1, .code .skip, w => .ok w
  | f + 1, .code (.seq a b), w =>
      match exec env f (.code a) w with
      | .error er => .error er
      | .ok w1 => exec env f (.code b) w1
  | _ + 1, .code (.doRead e), w => .ok (evalExpr e w).1
  | f + 1, .code (.cif e c1 c2), w =>
      let p := evalExpr e w
      exec env f (.code (if p.2 ≠ 0 then c1 else c2)) p.1
  | f + 1, .code (.set s e), w =>
      let p := evalExpr e w
      exec env f (.setv s p.2) p.1
  | f + 1, .code (.selUpdate comp m e), w =>
      let p := evalExpr e (pushEv (.derive m) w)
      if comp (p.1.sigVal m) p.2 then .ok p.1
      else exec env f (.setv m p.2) p.1
  | f + 1, .setv s v, w =>
      if w.borrowed s then .error .cyclic
      else
        let w1 := storeVal s v w
        exec env f (.cbs (w1.sigSubs s)) w1
  | _ + 1, .cbs [], w => .ok w
  | f + 1, .cbs (cb :: rest), w =>
      match exec env f (.cb cb) w with
      | .error er => .error er
      | .ok w1 => exec env f (.cbs rest) w1
  | f + 1, .cb cb, w =>
      match env cb with
      | .plain c => exec env f (.code c) (pushEv (.invoke cb) w)
      | .effect c =>
          let w1 := cleanupRun cb (pushEv (.invoke cb) w)
          let w2 := pushCtx cb w1
          match exec env f (.code c) w2 with
          | .error er => .error er
          | .ok w3 => .ok (popCtx (subscribeDeps cb w3))

/-- `Signal::set` as an entry point. -/
def setSig (env : Nat → CbK) (f : Nat) (s v : Nat) (w : World) : Except Err World :=
  exec env f (.setv s v) w

/-- A sequence of `Signal::set` calls on one signal. -/
def setMany (env : Nat → CbK) (f : Nat) (s : Nat) : List Nat → World → Except Err World
  | [], w => .ok w
  | v :: vs, w =>
      match setSig env f s v w with
      | .error er => .error er
      | .ok w1 => setMany env f s vs w1

/-- `create_effect`: install a fresh `Running` record for the callback
and run `execute` once. -/
def createEffect (env : Nat → CbK) (f : Nat) (cb : Nat) (w : World) : Except Err World :=
  exec env f (.cb cb) { w with effDeps := fupd w.effDeps cb [] }

/-- `create_selector_with` set-up via `create_effect_initial`: push a
fresh running record, run `derived` once (tracked) to seed the memo
signal `m`, subscribe the plain re-run callback `cb` to every dependency
recorded by that first run, pop.  The memo is a fresh signal: its value
is the first output and its subscriber list starts empty. -/
def createSelector (m cb : Nat) (e : Expr) (w : World) : World :=
  let w1 := { w with effDeps := fupd w.effDeps cb [], contexts := cb :: w.contexts }
  let p := evalExpr e (pushEv (.derive m) w1)
  let w3 := { p.1 with sigVal := fupd p.1.sigVal m p.2, sigSubs := fupd p.1.sigSubs m [] }
  let w4 := subscribeDeps cb w3
  { w4 with contexts := w4.contexts.tail }

/-- Code with no write: contains no `Signal::set` and no selector
update (the only statements that can notify subscribers). -/
def writeFree : Code → Bool
  | .skip => true
  | .seq a b => writeFree a && writeFree b
  | .doRead _ => true
  | .cif _ c1 c2 => writeFree c1 && writeFree c2
  | .set _ _ => false
  | .selUpdate _ _ _ => false

/-- Tasks that perform no top-level write themselves (running code that
is write-free, or invoking callbacks). -/
def taskWF : RTask → Bool
  | .code c => writeFree c
  | .setv _ _ => false
  | .cbs _ => true
  | .cb _ => true

/-- The trace a write-free task appends: one `invoke` per callback. -/
def taskEvs : RTask → List Ev
  | .code _ => []
  | .setv _ _ => []
  | .cbs l => l.map Ev.invoke
  | .cb c => [Ev.invoke c]

/-- A convenient initial world. -/
def World.init (vals : Nat → Nat) : World :=
  { sigVal := vals
    sigSubs := fun _ => []
    effDeps := fun _ => []
    contexts := []
    trace := []
    borrowed := fun _ => false }

/-!
## The list reconcilers (`reactive/iter.rs`)

`map_keyed` and `map_indexed` are `FnMut` closures over persistent
captured state: the previous `items`, the `Rc<RefCell<Vec<U>>>` of
mapped outputs, and the per-index scopes.  One invocation of the closure
with a new item sequence is modelled as a pure step function on an
explicit state record.  Runtime panics of the source (`Vec` indexing out
of bounds, `Option::unwrap` on `None`) and failures of the mapping
function are `RErr` results; since a Rust panic unwinds while leaving
already-performed mutations of the captured state in place, every step
function returns the (possibly partially mutated) state alongside the
`Except` outcome.  `debug_assert!` lines are not evaluated (release
semantics).

The mapping function is state-passing (`σ → T → Except Unit (σ × U)`),
modelling closures such as the shared incrementing counter of the
tests; a failure models a panic inside `map_fn`.
-/

/-- Runtime failures of a reconciler update: `Vec` index out of bounds,
`Option::unwrap` on `None`, or a failure of the mapping function. -/
inductive RErr where
  | oob
  | unwrapNone
  | mapFail
  deriving DecidableEq, Repr

/-- Bounds-checked read, `v[i]` of the source. -/
def getE (l : List α) (i : Nat) : Except RErr α :=
  match l.get? i with
  | some a => .ok a
  | none => .error .oob

/-- Bounds-checked in-place write, `v[i] = a` of the source. -/
def setE (l : List α) (i : Nat) (a : α) : Except RErr (List α) :=
  if i < l.length then .ok (l.set i a) else .error .oob

/-- The cast chain `-1isize as usize` (and generally `isize → usize`)
on a 64-bit target: two's-complement wrap. -/
def intToUsize (i : Int) : Nat :=
  (i % (2 ^ 64 : Int)).toNat

/-- `HashMap::insert` / `HashMap::get` over an association list:
insert shadows, lookup takes the most recent binding. -/
def alGet [DecidableEq T] (k : T) (m : List (T × Nat)) : Option Nat :=
  (m.find? (fun p => decide (p.1 = k))).map (fun p => p.2)

/-- Captured state of one `map_keyed` closure: previous `items`, the
mapped outputs, the per-index scopes (`Vec<Option<Rc<ReactiveScope>>>`),
the mapping function's own captured state `mst`, and the next fresh
scope identity. -/
structure KSt (T U σ : Type) where
  items : List T
  mapped : List U
  scopes : List (Option Nat)
  mst : σ
  freshS : Nat
  deriving Repr

/-- Captured state of one `map_indexed` closure (scopes are not
optional there: `Vec<ReactiveScope>`). -/
structure ISt (T U σ : Type) where
  items : List T
  mapped : List U
  scopes : List Nat
  mst : σ
  freshS : Nat
  deriving Repr

/-- The common prefix skip (`while start < end && items[start] ==
new_items[start]`): length of the longest common prefix, automatically
bounded by both lengths. -/
def commonStart [DecidableEq T] : List T → List T → Nat
  | a :: as_, b :: bs => if a = b then commonStart as_ bs + 1 else 0
  | _, _ => 0

/-- Fast path of `map_keyed` for a previously-empty list: map every new
item fresh, in order; each `create_root` call allocates a fresh scope.
`create_root` itself is not under `src/` — modelled from the spec: it
runs the closure and returns a new owned disposal scope, represented by
a fresh identity. -/
def freshGo (mapFn : σ → T → Except Unit (σ × U)) :
    List T → KSt T U σ → KSt T U σ × Except RErr Unit
  | [], st => (st, .ok ())
  | t :: ts, st =>
      match mapFn st.mst t with
      | .error _ => (st, .error .mapFail)
      | .ok (s', u) =>
          freshGo mapFn ts
            { st with
              mapped := st.mapped ++ [u]
              scopes := st.scopes ++ [some st.freshS]
              mst := s'
              freshS := st.freshS + 1 }

/-- The common suffix skip of `map_keyed`, verbatim: while `start < end
&& start < new_end && items[end] == new_items[new_end]`, decrement both
ends FIRST and then copy `mapped[end]`/`scopes[end]` into
`temp[new_end]`/`temp_scopes[new_end]` at the decremented indices (this
is the source's order of operations).  Only locals are mutated.
Returns the final `(end, new_end, temp, temp_scopes)`. -/
def suffixGo [DecidableEq T] (items newItems : List T) (mapped : List U)
    (scopes : List (Option Nat)) (start : Nat) :
    Nat → Nat → List (Option U) → List (Option Nat) →
    Except RErr (Nat × Nat × List (Option U) × List (Option Nat))
  | 0, ne, temp, tmps => .ok (0, ne, temp, tmps)
  | e + 1, ne, temp, tmps =>
      if start < e + 1 ∧ start < ne then
        match items.get? (e + 1), newItems.get? ne with
        | some a, some b =>
            if a = b then
              match ne with
              | 0 => .error .oob
              | ne' + 1 =>
                  match getE mapped e with
                  | .error er => .error er
                  | .ok mv =>
                      match setE temp ne' (some mv) with
                      | .error er => .error er
                      | .ok temp' =>
                          match getE scopes e with
                          | .error er => .error er
                          | .ok sv =>
                              match setE tmps ne' sv with
                              | .error er => .error er
                              | .ok tmps' => suffixGo items newItems mapped scopes start e ne' temp' tmps'
            else .ok (e + 1, ne, temp, tmps)
        | _, _ => .error .oob
      else .ok (e + 1, ne, temp, tmps)

/-- Step 0 of `map_keyed`: scan the new range backwards (from `i` down
to `start`), recording for each item its "next later occurrence" in
`new_indices_next` (`-1` when none) and its earliest occurrence in the
`new_indices` map. -/
def step0go [DecidableEq T] (newItems : List T) (start : Nat) :
    Nat → List (T × Nat) → List Int →
    Except RErr (List (T × Nat) × List Int)
  | i, ni, nx => Id.run do
      match newItems.get? i with
      | none => return .error .oob
      | some item =>
          let jv : Int :=
            match alGet item ni with
            | some j => (j : Int)
            | none => -1
          match setE nx i jv with
          | .error er => return .error er
          | .ok nx' =>
              let ni' := (item, i) :: ni
              match i with
              | 0 => return .ok (ni', nx')
              | i' + 1 =>
                  if start < i' + 1 then return step0go newItems start i' ni' nx'
                  else return .ok (ni', nx')

/-- Step 1 of `map_keyed`: walk the old range left to right (`k` is the
number of indices remaining after the current `i`; the loop runs from
`start` to `end` inclusive).  A matched old item copies its output and
scope into `temp`/`temp_scopes` at the claimed new position and advances
that value's index entry through `new_indices_next` (the `-1` sentinel
is cast `as usize` and so wraps); an unmatched old item has its scope
slot overwritten with `None` (dropping the scope).  `scopes` is
persistent state and is returned even on a panic. -/
def step1go [DecidableEq T] (items : List T) (mapped : List U) (nx : List Int) :
    Nat → Nat → List (T × Nat) → List (Option U) → List (Option Nat) →
    List (Option Nat) →
    List (Option Nat) × Except RErr (List (Option U) × List (Option Nat) × List (T × Nat))
  | k, i, ni, temp, tmps, scopes =>
      match items.get? i with
      | none => (scopes, .error .oob)
      | some item =>
          match alGet item ni with
          | some j =>
              match getE mapped i with
              | .error er => (scopes, .error er)
              | .ok mv =>
                  match setE temp j (some mv) with
                  | .error er => (scopes, .error er)
                  | .ok temp' =>
                      match getE scopes i with
                      | .error er => (scopes, .error er)
                      | .ok sv =>
                          match setE tmps j sv with
                          | .error er => (scopes, .error er)
                          | .ok tmps' =>
                              match getE nx j with
                              | .error er => (scopes, .error er)
                              | .ok jv =>
                                  let ni' := (item, intToUsize jv) :: ni
                                  match k with
                                  | 0 => (scopes, .ok (temp', tmps', ni'))
                                  | k' + 1 => step1go items mapped nx k' (i + 1) ni' temp' tmps' scopes
          | none =>
              match setE scopes i none with
              | .error er => (scopes, .error er)
              | .ok scopes' =>
                  match k with
                  | 0 => (scopes', .ok (temp, tmps, ni))
                  | k' + 1 => step1go items mapped nx k' (i + 1) ni temp tmps scopes'

/-- Step 2 of `map_keyed`: fill every position of `start..new_items.len()`
(`k` counts the remaining positions, `k + i = new_items.len()`).  The
source guards the "pull from moved array" branch with
`temp.get(i).is_some()`, which tests only that `i` is within `temp`'s
bounds, and then runs `temp[i].clone().unwrap()` — panicking when the
slot holds `None`.  The "create new value" branch is the source's
`else`: `create_root(map_fn)`, then write-or-push (again, `create_root`
is modelled from the spec as running the closure and allocating a fresh
scope identity).  `mapped`, `scopes`, the map state and the fresh-scope
counter are persistent. -/
def step2go (mapFn : σ → T → Except Unit (σ × U)) (newItems : List T)
    (temp : List (Option U)) (tmps : List (Option Nat)) :
    Nat → Nat → KSt T U σ → KSt T U σ × Except RErr Unit
  | 0, _, st => (st, .ok ())
  | k + 1, i, st =>
      if i < temp.length then
        match temp.get? i with
        | none => (st, .error .oob)
        | some none => (st, .error .unwrapNone)
        | some (some u) =>
            match setE st.mapped i u with
            | .error er => (st, .error er)
            | .ok mp =>
                match getE tmps i with
                | .error er => ({ st with mapped := mp }, .error er)
                | .ok sv =>
                    match setE st.scopes i sv with
                    | .error er => ({ st with mapped := mp }, .error er)
                    | .ok sc =>
                        step2go mapFn newItems temp tmps k (i + 1)
                          { st with mapped := mp, scopes := sc }
      else
        match newItems.get? i with
        | none => (st, .error .oob)
        | some t =>
            match mapFn st.mst t with
            | .error _ => (st, .error .mapFail)
            | .ok (s', u) =>
                let st1 := { st with mst := s' }
                if st1.mapped.length > i then
                  match setE st1.mapped i u with
                  | .error er => (st1, .error er)
                  | .ok mp =>
                      match setE st1.scopes i (some st1.freshS) with
                      | .error er => ({ st1 with mapped := mp }, .error er)
                      | .ok sc =>
                          step2go mapFn newItems temp tmps k (i + 1)
                            { st1 with mapped := mp, scopes := sc, freshS := st1.freshS + 1 }
                else
                  step2go mapFn newItems temp tmps k (i + 1)
                    { st1 with
                      mapped := st1.mapped ++ [u]
                      scopes := st1.scopes ++ [some st1.freshS]
                      freshS := st1.freshS + 1 }

/-- Steps 3 and 4 of `map_keyed` (they run on every path): truncate
`mapped` and `scopes` to the new length, save the new items as the
baseline, and return a clone of `mapped`. -/
def keyedFinish (st : KSt T U σ) (newItems : List T) :
    KSt T U σ × Except RErr (List U) :=
  let st' := { st with
    mapped := st.mapped.take newItems.length
    scopes := st.scopes.take newItems.length
    items := newItems }
  (st', .ok st'.mapped)

/-- One invocation of the `map_keyed` closure with a new item sequence:
the two fast paths, then the general diff (common prefix, common
suffix, backward index of the new range, matching pass over the old
range, fill pass over the new range), then truncate and save.
`list.get()`'s subscription and the `untrack` wrapper happen outside
this state transformation (`untrack` is not under `src/`; per the spec
it only suppresses dependency registration of the bookkeeping reads,
which this pure model has none of). -/
def keyedStep [DecidableEq T] (mapFn : σ → T → Except Unit (σ × U))
    (st : KSt T U σ) (newItems : List T) :
    KSt T U σ × Except RErr (List U) :=
  if newItems.isEmpty then
    keyedFinish { st with scopes := [], mapped := [] } newItems
  else if st.items.isEmpty then
    match freshGo mapFn newItems st with
    | (st1, .error er) => (st1, .error er)
    | (st1, .ok ()) => keyedFinish st1 newItems
  else
    let n := newItems.length
    let temp : List (Option U) := List.replicate n none
    let tmps : List (Option Nat) := List.replicate n none
    let start := commonStart st.items newItems
    match suffixGo st.items newItems st.mapped st.scopes start
        (st.items.length - 1) (n - 1) temp tmps with
    | .error er => (st, .error er)
    | .ok (e, ne, temp1, tmps1) =>
        let nx0 : List Int := List.replicate (ne + 1) 0
        match (if start < ne then step0go newItems start ne [] nx0
               else .ok ([], nx0)) with
        | .error er => (st, .error er)
        | .ok (ni, nx) =>
            match (if start < e then
                     step1go st.items st.mapped nx (e - start) start ni temp1 tmps1 st.scopes
                   else (st.scopes, .ok (temp1, tmps1, ni))) with
            | (scopes1, .error er) => ({ st with scopes := scopes1 }, .error er)
            | (scopes1, .ok (temp2, tmps2, _)) =>
                match step2go mapFn newItems temp2 tmps2 (n - start) start
                    { st with scopes := scopes1 } with
                | (st1, .error er) => (st1, .error er)
                | (st1, .ok ()) => keyedFinish st1 newItems

/-- The per-index loop of `map_indexed` (`k` counts the remaining
indices, `k + i = new_items.len()`): no previous item at `i` means map
fresh and push; a differing previous item means map fresh and overwrite
in place (the old scope at `i` is dropped); an equal item is left
untouched.  `create_root` modelled from the spec as for `map_keyed`. -/
def idxGo [DecidableEq T] (mapFn : σ → T → Except Unit (σ × U)) (newItems : List T) :
    Nat → Nat → ISt T U σ → ISt T U σ × Except RErr Unit
  | 0, _, st => (st, .ok ())
  | k + 1, i, st =>
      match newItems.get? i with
      | none => (st, .error .oob)
      | some newItem =>
          match st.items.get? i with
          | none =>
              match mapFn st.mst newItem with
              | .error _ => (st, .error .mapFail)
              | .ok (s', u) =>
                  idxGo mapFn newItems k (i + 1)
                    { st with
                      mapped := st.mapped ++ [u]
                      scopes := st.scopes ++ [st.freshS]
                      mst := s'
                      freshS := st.freshS + 1 }
          | some old =>
              if old = newItem then idxGo mapFn newItems k (i + 1) st
              else
                match mapFn st.mst newItem with
                | .error _ => (st, .error .mapFail)
                | .ok (s', u) =>
                    let sid := st.freshS
                    let st1 := { st with mst := s', freshS := sid + 1 }
                    match setE st1.mapped i u with
                    | .error er => (st1, .error er)
                    | .ok mp =>
                        match setE st1.scopes i sid with
                        | .error er => ({ st1 with mapped := mp }, .error er)
                        | .ok sc =>
                            idxGo mapFn newItems k (i + 1)
                              { st1 with mapped := mp, scopes := sc }

/-- One invocation of the `map_indexed` closure: the empty fast path
clears everything (including the baseline, inside the branch); the
general path maps per index, pops the extra scopes when the new list is
shorter, truncates, and saves the baseline. -/
def indexedStep [DecidableEq T] (mapFn : σ → T → Except Unit (σ × U))
    (st : ISt T U σ) (newItems : List T) :
    ISt T U σ × Except RErr (List U) :=
  if newItems.isEmpty then
    let st1 := { st with scopes := ([] : List Nat), items := ([] : List T), mapped := ([] : List U) }
    (st1, .ok st1.mapped)
  else
    match idxGo mapFn newItems newItems.length 0 st with
    | (st1, .error er) => (st1, .error er)
    | (st1, .ok ()) =>
        let st2 :=
          if newItems.length < st1.items.length then
            { st1 with
              scopes := st1.scopes.take (st1.scopes.length - (st1.items.length - newItems.length)) }
          else st1
        let st3 := { st2 with
          mapped := st2.mapped.take newItems.length
          scopes := st2.scopes.take newItems.length
          items := newItems }
        (st3, .ok st3.mapped)

/-!
## Concrete scenarios

The environments, worlds and reconciler states used by the concrete
evaluations below.  Signal ids: see each definition's comment.
-/

/-- The shared incrementing-counter mapping function of the tests
(`counter.set(counter.get() + 1); counter.get()`): state is the counter,
output is its post-increment value. -/
def cntMap : Nat → Nat → Except Unit (Nat × Nat) :=
  fun c _ => .ok (c + 1, c + 1)

/-- A mapping function that fails (panics) on the item `2` and otherwise
returns `100 + counter`. -/
def failMap : Nat → Nat → Except Unit (Nat × Nat) :=
  fun c t => if t = 2 then .error () else .ok (c + 1, 100 + c)

/-- The initial captured state of a fresh `map_keyed` closure. -/
def kstEmpty : KSt Nat Nat Nat := ⟨[], [], [], 0, 0⟩

/-- The initial captured state of a fresh `map_indexed` closure. -/
def istEmpty : ISt Nat Nat Nat := ⟨[], [], [], 0, 0⟩

/-- Well-formedness of a keyed reconciler state: the three parallel
arrays have equal length (established by every completed update). -/
def KWf (st : KSt T U σ) : Prop :=
  st.mapped.length = st.items.length ∧ st.scopes.length = st.items.length

/-- Well-formedness of an indexed reconciler state. -/
def IWf (st : ISt T U σ) : Prop :=
  st.mapped.length = st.items.length ∧ st.scopes.length = st.items.length

/-- The body of the `effect_should_recreate_dependencies` test effect:
`counter.set(counter.get_untracked() + 1); if condition.get() \x7b
state1.get() \x7d else \x7b state2.get() \x7d` with signals
condition = 0, state1 = 1, state2 = 2, counter = 3. -/
def body2 : Code :=
  .seq (.set 3 (.add (.getU 3) (.lit 1)))
    (.cif (.getT 0) (.doRead (.getT 1)) (.doRead (.getT 2)))

/-- Callback table for the conditional-dependency scenario: callback 10
is the effect's `execute` closure. -/
def env2 : Nat → CbK := fun cb => if cb = 10 then .effect body2 else .plain .skip

/-- Initial values for the conditional-dependency scenario:
condition = true (1), state1 = 0, state2 = 1, counter = 0. -/
def vals2 : Nat → Nat := fun s => if s = 0 then 1 else if s = 2 then 1 else 0

/-- The conditional-dependency scenario up to and including
`condition.set(false)`: create the effect, then `state1.set(1)`,
`state2.set(1)`, `condition.set(false)` — the last run reads `condition`
and `state2` only. -/
def c2mid : Except Err World := do
  let w ← createEffect env2 50 10 (World.init vals2)
  let w ← setSig env2 50 1 1 w
  let w ← setSig env2 50 2 1 w
  setSig env2 50 0 0 w

/-- The conditional-dependency scenario continued with `state1.set(2)`,
a write to the signal the last run did not read. -/
def c2final : Except Err World := do
  let w ← c2mid
  setSig env2 50 1 2 w

/-- The body of the `cyclic_effects_fail_2` test effect:
`let value = *state.get(); state.set(value + 1)` on signal 0. -/
def body3 : Code := .set 0 (.add (.getT 0) (.lit 1))

/-- Callback table for the cyclic-write scenario: callback 10 is the
effect's `execute` closure. -/
def env3 : Nat → CbK := fun cb => if cb = 10 then .effect body3 else .plain .skip

/-- Callback table for the selector counterexample: callback 10 is the
selector's re-run closure with memo signal 1, derivation `upstream
signal 0`, and a comparator that always reports "equal". -/
def env5 : Nat → CbK :=
  fun cb => if cb = 10 then .plain (.selUpdate (fun _ _ => true) 1 (.getT 0)) else .plain .skip

/-- The world after `create_selector_with` in the selector
counterexample: upstream signal 0 starts at 1, the memo is signal 1,
the re-run callback is 10. -/
def wsel : World := createSelector 1 10 (.getT 0) (World.init (fun s => if s = 0 then 1 else 0))

/-- A callback table whose callbacks all do nothing (write-free). -/
def envP : Nat → CbK := fun _ => .plain .skip

/-- A world with two subscribers (ids 5 and 7) on signal 0, used to
witness the write/notification theorems. -/
def w14 : World :=
  { World.init (fun _ => 0) with sigSubs := fun s => if s = 0 then [5, 7] else [] }

/-!
## Frame lemmas for the reactive engine

Which fields each operation leaves untouched.
-/

theorem trackDep_frame (s : Nat) (w : World) :
    (trackDep s w).sigVal = w.sigVal ∧ (trackDep s w).sigSubs = w.sigSubs ∧
    (trackDep s w).borrowed = w.borrowed ∧ (trackDep s w).contexts = w.contexts ∧
    (trackDep s w).trace = w.trace := by
  rcases hc : w.contexts with _ | ⟨top, rest⟩
  · simp [trackDep, hc]
  · by_cases h : s ∈ w.effDeps top <;> simp [trackDep, hc, h]

theorem evalExpr_frame (e : Expr) (w : World) :
    (evalExpr e w).1.sigVal = w.sigVal ∧ (evalExpr e w).1.sigSubs = w.sigSubs ∧
    (evalExpr e w).1.borrowed = w.borrowed ∧ (evalExpr e w).1.contexts = w.contexts ∧
    (evalExpr e w).1.trace = w.trace := by
  induction e generalizing w with
  | lit n => exact ⟨rfl, rfl, rfl, rfl, rfl⟩
  | getU s => exact ⟨rfl, rfl, rfl, rfl, rfl⟩
  | getT s => exact trackDep_frame s w
  | add a b iha ihb =>
      obtain ⟨h1, h2, h3, h4, h5⟩ := iha w
      obtain ⟨g1, g2, g3, g4, g5⟩ := ihb (evalExpr a w).1
      refine ⟨?_, ?_, ?_, ?_, ?_⟩ <;>
        simp [evalExpr, h1, h2, h3, h4, h5, g1, g2, g3, g4, g5]

theorem foldSubs_frame (g : World → Nat → World)
    (hg : ∀ acc s, (g acc s).sigVal = acc.sigVal ∧ (g acc s).effDeps = acc.effDeps ∧
      (g acc s).borrowed = acc.borrowed ∧ (g acc s).contexts = acc.contexts ∧
      (g acc s).trace = acc.trace) :
    ∀ (l : List Nat) (w : World),
      (l.foldl g w).sigVal = w.sigVal ∧ (l.foldl g w).effDeps = w.effDeps ∧
      (l.foldl g w).borrowed = w.borrowed ∧ (l.foldl g w).contexts = w.contexts ∧
      (l.foldl g w).trace = w.trace := by
  intro l
  induction l with
  | nil => intro w; exact ⟨rfl, rfl, rfl, rfl, rfl⟩
  | cons a as ih =>
      intro w
      obtain ⟨h1, h2, h3, h4, h5⟩ := hg w a
      obtain ⟨g1, g2, g3, g4, g5⟩ := ih (g w a)
      refine ⟨?_, ?_, ?_, ?_, ?_⟩ <;>
        simp [List.foldl_cons, h1, h2, h3, h4, h5, g1, g2, g3, g4, g5]

theorem cleanupRun_frame (cb : Nat) (w : World) :
    (cleanupRun cb w).sigVal = w.sigVal ∧ (cleanupRun cb w).borrowed = w.borrowed ∧
    (cleanupRun cb w).contexts = w.contexts ∧ (cleanupRun cb w).trace = w.trace := by
  have h := foldSubs_frame (unsubStep cb) (fun acc s => ⟨rfl, rfl, rfl, rfl, rfl⟩)
    (w.effDeps cb) w
  exact ⟨h.1, h.2.2.1, h.2.2.2.1, h.2.2.2.2⟩

theorem subscribeDeps_frame (cb : Nat) (w : World) :
    (subscribeDeps cb w).sigVal = w.sigVal ∧ (subscribeDeps cb w).effDeps = w.effDeps ∧
    (subscribeDeps cb w).borrowed = w.borrowed ∧ (subscribeDeps cb w).contexts = w.contexts ∧
    (subscribeDeps cb w).trace = w.trace :=
  foldSubs_frame (subStep cb) (fun acc s => ⟨rfl, rfl, rfl, rfl, rfl⟩) (w.effDeps cb) w

/-- Write-free preservation: any task that performs no `Signal::set`
(write-free code, or callback invocations whose bodies are write-free)
preserves every signal value, the borrow flags and the context stack,
and appends exactly its own invocation events to the trace — even though
effect callbacks freely rewrite subscriber lists and dependency records
while running. -/
theorem execWF (env : Nat → CbK) (henv : ∀ cb, writeFree (bodyOf (env cb)) = true) :
    ∀ (f : Nat) (t : RTask) (w w' : World), taskWF t = true → exec env f t w = .ok w' →
      w'.sigVal = w.sigVal ∧ w'.borrowed = w.borrowed ∧ w'.contexts = w.contexts ∧
      w'.trace = w.trace ++ taskEvs t := by
  intro f
  induction f with
  | zero => intro t w w' _ h; simp [exec] at h
  | succ f ih =>
    intro t w w' hwf h
    match t with
    | .code .skip =>
        simp only [exec, Except.ok.injEq] at h
        subst h; simp [taskEvs]
    | .code (.seq a b) =>
        simp only [exec] at h
        have hw : writeFree a = true ∧ writeFree b = true := by
          simpa [taskWF, writeFree, Bool.and_eq_true] using hwf
        rcases heq : exec env f (.code a) w with er | w1
        · rw [heq] at h; exact absurd h (by simp)
        · rw [heq] at h
          obtain ⟨s1, b1, c1, t1⟩ := ih (.code a) w w1 hw.1 heq
          obtain ⟨s2, b2, c2, t2⟩ := ih (.code b) w1 w' hw.2 h
          have t1' : w1.trace = w.trace := by simpa [taskEvs] using t1
          have t2' : w'.trace = w1.trace := by simpa [taskEvs] using t2
          exact ⟨s2.trans s1, b2.trans b1, c2.trans c1, by simp [taskEvs, t2', t1']⟩
    | .code (.doRead e) =>
        simp only [exec, Except.ok.injEq] at h
        subst h
        obtain ⟨h1, _, h3, h4, h5⟩ := evalExpr_frame e w
        exact ⟨h1, h3, h4, by simp [taskEvs, h5]⟩
    | .code (.cif e c1 c2) =>
        simp only [exec] at h
        have hw : writeFree c1 = true ∧ writeFree c2 = true := by
          simpa [taskWF, writeFree, Bool.and_eq_true] using hwf
        obtain ⟨h1, _, h3, h4, h5⟩ := evalExpr_frame e w
        by_cases hc : (evalExpr e w).2 ≠ 0
        · rw [if_pos hc] at h
          obtain ⟨s2, b2, c2', t2⟩ := ih (.code c1) _ _ hw.1 h
          refine ⟨s2.trans h1, b2.trans h3, c2'.trans h4, ?_⟩
          have t2' : w'.trace = (evalExpr e w).1.trace := by simpa [taskEvs] using t2
          simp [taskEvs, t2', h5]
        · rw [if_neg hc] at h
          obtain ⟨s2, b2, c2', t2⟩ := ih (.code c2) _ _ hw.2 h
          refine ⟨s2.trans h1, b2.trans h3, c2'.trans h4, ?_⟩
          have t2' : w'.trace = (evalExpr e w).1.trace := by simpa [taskEvs] using t2
          simp [taskEvs, t2', h5]
    | .code (.set s e) => simp [taskWF, writeFree] at hwf
    | .code (.selUpdate comp m e) => simp [taskWF, writeFree] at hwf
    | .setv s v => simp [taskWF] at hwf
    | .cbs [] =>
        simp only [exec, Except.ok.injEq] at h
        subst h; simp [taskEvs]
    | .cbs (cb :: rest) =>
        simp only [exec] at h
        rcases heq : exec env f (.cb cb) w with er | w1
        · rw [heq] at h; exact absurd h (by simp)
        · rw [heq] at h
          obtain ⟨s1, b1, c1, t1⟩ := ih (.cb cb) w w1 rfl heq
          obtain ⟨s2, b2, c2, t2⟩ := ih (.cbs rest) w1 w' rfl h
          refine ⟨s2.trans s1, b2.trans b1, c2.trans c1, ?_⟩
          simp [taskEvs] at t1 t2 ⊢
          rw [t2, t1, List.append_assoc]; simp
    | .cb cb =>
        rcases hk : env cb with c | c
        · have hwc : writeFree c = true := by have := henv cb; rwa [hk] at this
          simp only [exec, hk] at h
          obtain ⟨s1, b1, c1, t1⟩ := ih (.code c) _ _ hwc h
          refine ⟨s1, b1, c1, ?_⟩
          simp [taskEvs] at t1 ⊢
          simpa [pushEv] using t1
        · have hwc : writeFree c = true := by have := henv cb; rwa [hk] at this
          simp only [exec, hk] at h
          rcases heq : exec env f (.code c)
              (pushCtx cb (cleanupRun cb (pushEv (.invoke cb) w))) with er | w3
          · rw [heq] at h; exact absurd h (by simp)
          · rw [heq] at h
            simp only [Except.ok.injEq] at h
            subst h
            obtain ⟨s1, b1, c1, t1⟩ := ih (.code c) _ _ hwc heq
            obtain ⟨cf1, cf2, cf3, cf4⟩ := cleanupRun_frame cb (pushEv (.invoke cb) w)
            obtain ⟨sd1, sd2, sd3, sd4, sd5⟩ := subscribeDeps_frame cb w3
            have t1' : w3.trace = (pushCtx cb (cleanupRun cb (pushEv (.invoke cb) w))).trace := by
              simpa [taskEvs] using t1
            refine ⟨?_, ?_, ?_, ?_⟩
            · show (subscribeDeps cb w3).sigVal = w.sigVal
              rw [sd1, s1]
              show (cleanupRun cb (pushEv (.invoke cb) w)).sigVal = w.sigVal
              rw [cf1]; rfl
            · show (subscribeDeps cb w3).borrowed = w.borrowed
              rw [sd3, b1]
              show (cleanupRun cb (pushEv (.invoke cb) w)).borrowed = w.borrowed
              rw [cf2]; rfl
            · show (subscribeDeps cb w3).contexts.tail = w.contexts
              rw [sd4, c1]
              show (cb :: (cleanupRun cb (pushEv (.invoke cb) w)).contexts).tail = w.contexts
              rw [List.tail_cons, cf3]; rfl
            · show (subscribeDeps cb w3).trace = w.trace ++ taskEvs (.cb cb)
              rw [sd5, t1']
              show (cleanupRun cb (pushEv (.invoke cb) w)).trace = w.trace ++ [Ev.invoke cb]
              rw [cf4]; rfl

/-- A successful `Signal::set` against write-free subscribers: the value
is stored, all other values are untouched, the borrow flags survive, and
the trace grows by exactly one invocation per subscriber of the snapshot
taken at the moment of the store, in list order. -/
theorem setSigWF (env : Nat → CbK) (henv : ∀ cb, writeFree (bodyOf (env cb)) = true)
    (f s v : Nat) (w w' : World) (h : setSig env f s v w = .ok w') :
    w'.sigVal s = v ∧ (∀ t, t ≠ s → w'.sigVal t = w.sigVal t) ∧
    w'.borrowed = w.borrowed ∧
    w'.trace = w.trace ++ (w.sigSubs s).map Ev.invoke := by
  match f with
  | 0 => simp [setSig, exec] at h
  | f + 1 =>
    rw [setSig] at h
    simp only [exec] at h
    by_cases hb : w.borrowed s
    · rw [if_pos hb] at h; exact absurd h (by simp)
    · rw [if_neg hb] at h
      obtain ⟨h1, h3, _, h4⟩ :=
        execWF env henv f (.cbs ((storeVal s v w).sigSubs s)) _ _ rfl h
      refine ⟨?_, ?_, ?_, ?_⟩
      · rw [h1]; show fupd w.sigVal s v s = v; simp [fupd]
      · intro t ht; rw [h1]; show fupd w.sigVal s v t = w.sigVal t; simp [fupd, ht]
      · rw [h3]; rfl
      · rw [h4]; rfl

/-- The last write of a successful write sequence determines the stored
value (write-free subscribers). -/
theorem setManyLast (env : Nat → CbK) (henv : ∀ cb, writeFree (bodyOf (env cb)) = true) :
    ∀ (vs : List Nat) (v f s : Nat) (w w' : World),
      setMany env f s (vs ++ [v]) w = .ok w' → w'.sigVal s = v := by
  intro vs
  induction vs with
  | nil =>
      intro v f s w w' h
      simp only [List.nil_append, setMany] at h
      rcases heq : setSig env f s v w with er | w1
      · rw [heq] at h; exact absurd h (by simp)
      · rw [heq] at h
        simp only [setMany, Except.ok.injEq] at h
        subst h
        exact (setSigWF env henv f s v w w1 heq).1
  | cons a as ih =>
      intro v f s w w' h
      simp only [List.cons_append, setMany] at h
      rcases heq : setSig env f s a w with er | w1
      · rw [heq] at h; exact absurd h (by simp)
      · rw [heq] at h
        exact ih v f s w1 w' h

theorem subOnce_mem (cb : Nat) (l : List Nat) (h : cb ∈ l) : subOnce cb l = l := by
  unfold subOnce
  rw [if_pos]
  rw [List.find?_isSome]
  exact ⟨cb, h, by simp⟩

theorem subOnce_not_mem (cb : Nat) (l : List Nat) (h : cb ∉ l) : subOnce cb l = l ++ [cb] := by
  unfold subOnce
  rw [if_neg]
  intro hs
  rw [List.find?_isSome] at hs
  obtain ⟨x, hx, hbeq⟩ := hs
  simp only [beq_iff_eq] at hbeq
  exact h (hbeq ▸ hx)

/-- `cleanup_running` cannot remove the sole subscriber of a signal when
that subscriber is the very callback being "unsubscribed": the inverted
filter keeps it. -/
theorem foldUnsub_keeps (cb s : Nat) :
    ∀ (l : List Nat) (w : World), w.sigSubs s = [cb] →
      (l.foldl (unsubStep cb) w).sigSubs s = [cb] := by
  intro l
  induction l with
  | nil => intro w h; exact h
  | cons a as ih =>
      intro w h
      rw [List.foldl_cons]
      apply ih
      show fupd w.sigSubs a (unsubscribe cb (w.sigSubs a)) s = [cb]
      by_cases ha : s = a
      · subst ha; simp [fupd, h, unsubscribe]
      · simp [fupd, ha, h]

theorem cleanup_keeps (cb s : Nat) (w : World) (h : w.sigSubs s = [cb]) :
    (cleanupRun cb w).sigSubs s = [cb] :=
  foldUnsub_keeps cb s (w.effDeps cb) w h

/-- The cyclic effect (`state.set(state.get() + 1)` inside its own
body) never stops: because `unsubscribe` keeps the handler instead of
removing it, `cleanup_running` leaves the effect subscribed to signal 0,
so the nested `Signal::set` re-invokes the very same `execute` callback.
For every fuel the interpreter runs out — the source recursion is
unbounded (in Rust: recursion until stack overflow), and in particular
the `"cannot create cyclic dependency"` panic is never reached. -/
theorem env3_diverges :
    ∀ (f : Nat) (w : World), w.borrowed 0 = false → w.sigSubs 0 = [10] →
      exec env3 f (.cb 10) w = .error .fuelOut := by
  intro f
  induction f using Nat.strong_induction_on with
  | _ f ih =>
    match f with
    | 0 => intro w _ _; rfl
    | 1 => intro w _ _; rfl
    | 2 => intro w _ _; rfl
    | j + 3 =>
      intro w hb hs
      have hw2subs : (pushCtx 10 (cleanupRun 10 (pushEv (.invoke 10) w))).sigSubs 0 = [10] :=
        cleanup_keeps 10 0 (pushEv (.invoke 10) w) hs
      have hw2b : (pushCtx 10 (cleanupRun 10 (pushEv (.invoke 10) w))).borrowed 0 = false := by
        show (cleanupRun 10 (pushEv (.invoke 10) w)).borrowed 0 = false
        rw [(cleanupRun_frame 10 (pushEv (.invoke 10) w)).2.1]
        exact hb
      have hset : ∀ (V : Nat) (U : World), U.borrowed 0 = false → U.sigSubs 0 = [10] →
          exec env3 (j + 1) (.setv 0 V) U = .error .fuelOut := by
        intro V U hUb hUs
        simp only [exec]
        rw [if_neg (show ¬ (U.borrowed 0 = true) by simp [hUb])]
        have hsub2 : (storeVal 0 V U).sigSubs 0 = [10] := hUs
        rw [hsub2]
        match j with
        | 0 => rfl
        | k + 1 =>
          simp only [exec]
          rw [ih k (by omega) (storeVal 0 V U) hUb hsub2]
      have hbody : exec env3 (j + 2) (.code body3)
          (pushCtx 10 (cleanupRun 10 (pushEv (.invoke 10) w))) = .error .fuelOut := by
        show exec env3 (j + 1)
            (.setv 0 (evalExpr (.add (.getT 0) (.lit 1))
              (pushCtx 10 (cleanupRun 10 (pushEv (.invoke 10) w)))).2)
            (evalExpr (.add (.getT 0) (.lit 1))
              (pushCtx 10 (cleanupRun 10 (pushEv (.invoke 10) w)))).1 = .error .fuelOut
        apply hset
        · rw [(evalExpr_frame (.add (.getT 0) (.lit 1)) _).2.2.1]
          exact hw2b
        · rw [(evalExpr_frame (.add (.getT 0) (.lit 1)) _).2.1]
          exact hw2subs
      show (match exec env3 (j + 2) (.code body3)
            (pushCtx 10 (cleanupRun 10 (pushEv (.invoke 10) w))) with
          | .error er => (.error er : Except Err World)
          | .ok w3 => .ok (popCtx (subscribeDeps 10 w3))) = .error .fuelOut
      rw [hbody]

/-!
## Reconciler lemmas
-/

theorem cs_self [DecidableEq T] : ∀ (l : List T), commonStart l l = l.length := by
  intro l
  induction l with
  | nil => rfl
  | cons a as ih => simp [commonStart, ih]

theorem cs_le [DecidableEq T] :
    ∀ (a b : List T), commonStart a b ≤ min a.length b.length := by
  intro a
  induction a with
  | nil => intro b; simp [commonStart]
  | cons x xs ih =>
      intro b
      cases b with
      | nil => simp [commonStart]
      | cons y ys =>
          by_cases h : x = y
          · simp only [commonStart, if_pos h]
            have := ih ys
            simp only [List.length_cons]
            omega
          · simp [commonStart, h]

theorem setE_ok {l l' : List α} {i : Nat} {a : α} (h : setE l i a = .ok l') :
    l'.length = l.length ∧ i < l.length := by
  unfold setE at h
  by_cases hi : i < l.length
  · rw [if_pos hi] at h
    simp only [Except.ok.injEq] at h
    subst h
    exact ⟨List.length_set l i a, hi⟩
  · rw [if_neg hi] at h; exact absurd h (by simp)

theorem suffixGo_stop [DecidableEq T] (items newItems : List T) (mapped : List U)
    (scopes : List (Option Nat)) (start e ne : Nat) (temp : List (Option U))
    (tmps : List (Option Nat)) (h : ¬ start < e) :
    suffixGo items newItems mapped scopes start e ne temp tmps = .ok (e, ne, temp, tmps) := by
  match e with
  | 0 => rfl
  | e + 1 =>
      show (if start < e + 1 ∧ start < ne then _ else _) = _
      rw [if_neg (by intro hc; exact h hc.1)]

theorem suffixGo_pres [DecidableEq T] (items newItems : List T) (mapped : List U)
    (scopes : List (Option Nat)) (start : Nat) :
    ∀ (e ne : Nat) (temp : List (Option U)) (tmps : List (Option Nat))
      (e' ne' : Nat) (temp' : List (Option U)) (tmps' : List (Option Nat)),
      suffixGo items newItems mapped scopes start e ne temp tmps = .ok (e', ne', temp', tmps') →
      temp'.length = temp.length ∧ tmps'.length = tmps.length := by
  intro e
  induction e with
  | zero =>
      intro ne temp tmps e' ne' temp' tmps' h
      simp only [suffixGo, Except.ok.injEq, Prod.mk.injEq] at h
      obtain ⟨_, _, h3, h4⟩ := h
      exact ⟨h3 ▸ rfl, h4 ▸ rfl⟩
  | succ e ih =>
      intro ne temp tmps e' ne' temp' tmps' h
      simp only [suffixGo] at h
      repeat' split at h
      all_goals
        first
        | (simp only [Except.ok.injEq, Prod.mk.injEq] at h
           obtain ⟨_, _, h3, h4⟩ := h
           exact ⟨h3 ▸ rfl, h4 ▸ rfl⟩)
        | exact Except.noConfusion h
        | skip
      rename_i x5 x4 a b hga hab ne0 ne1 hc hgb x3 mv hmv x2 tempA hst x1 sv hsv x0 tmpsA hts
      obtain ⟨p1, p2⟩ := ih ne1 tempA tmpsA e' ne' temp' tmps' h
      exact ⟨p1.trans (setE_ok hst).1, p2.trans (setE_ok hts).1⟩

theorem step1go_pres [DecidableEq T] (items : List T) (mapped : List U) (nx : List Int) :
    ∀ (k i : Nat) (ni : List (T × Nat)) (temp : List (Option U)) (tmps : List (Option Nat))
      (scopes scopes' : List (Option Nat)) (temp' : List (Option U))
      (tmps' : List (Option Nat)) (ni' : List (T × Nat)),
      step1go items mapped nx k i ni temp tmps scopes = (scopes', .ok (temp', tmps', ni')) →
      scopes'.length = scopes.length ∧ temp'.length = temp.length ∧
      tmps'.length = tmps.length := by
  intro k
  induction k with
  | zero =>
      intro i ni temp tmps scopes scopes' temp' tmps' ni' h
      rw [step1go] at h
      repeat' split at h
      all_goals
        first
        | (rw [Prod.mk.injEq] at h; exact Except.noConfusion h.2)
        | (rename_i hk; exact absurd hk (by omega))
        | skip
      -- matched-item arm, loop ends
      · rename_i x6 item hgi x5 j hal x4 mv hmv x3 tempA hsetT x2 sv hgs x1 tmpsA hsetS x0 jv hnx ne0 hk
        simp only [Prod.mk.injEq, Except.ok.injEq] at h
        obtain ⟨hsc, h1, h2, _⟩ := h
        refine ⟨by rw [hsc], ?_, ?_⟩
        · rw [← h1]; exact (setE_ok hsetT).1
        · rw [← h2]; exact (setE_ok hsetS).1
      -- unmatched-item arm, loop ends
      · rename_i x2 item hgi x1 hal x0 scB hsetSc ne0 hk
        simp only [Prod.mk.injEq, Except.ok.injEq] at h
        obtain ⟨hsc, h1, h2, _⟩ := h
        refine ⟨?_, by rw [h1], by rw [h2]⟩
        rw [← hsc]; exact (setE_ok hsetSc).1
  | succ k ih =>
      intro i ni temp tmps scopes scopes' temp' tmps' ni' h
      rw [step1go] at h
      repeat' split at h
      all_goals
        first
        | (rw [Prod.mk.injEq] at h; exact Except.noConfusion h.2)
        | (rename_i hk; exact absurd hk (by omega))
        | skip
      -- matched-item arm, loop continues
      · rename_i x6 item hgi x5 j hal x4 mv hmv x3 tempA hsetT x2 sv hgs x1 tmpsA hsetS x0 jv hnx ne0 ne1 hk
        have hk' : ne1 = k := by omega
        subst hk'
        obtain ⟨p1, p2, p3⟩ :=
          ih (i + 1) ((item, intToUsize jv) :: ni) tempA tmpsA scopes scopes' temp' tmps' ni' h
        exact ⟨p1, p2.trans (setE_ok hsetT).1, p3.trans (setE_ok hsetS).1⟩
      -- unmatched-item arm, loop continues
      · rename_i x2 item hgi x1 hal x0 scB hsetSc ne0 ne1 hk
        have hk' : ne1 = k := by omega
        subst hk'
        obtain ⟨p1, p2, p3⟩ := ih (i + 1) ni temp tmps scB scopes' temp' tmps' ni' h
        exact ⟨p1.trans (setE_ok hsetSc).1, p2, p3⟩

theorem step2go_items (mapFn : σ → T → Except Unit (σ × U)) (newItems : List T)
    (temp : List (Option U)) (tmps : List (Option Nat)) :
    ∀ (k i : Nat) (st st' : KSt T U σ) (r : Except RErr Unit),
      step2go mapFn newItems temp tmps k i st = (st', r) → st'.items = st.items := by
  intro k
  induction k with
  | zero =>
      intro i st st' r h
      simp only [step2go, Prod.mk.injEq] at h
      rw [← h.1]
  | succ k ih =>
      intro i st st' r h
      rw [step2go] at h
      repeat' split at h
      all_goals try dsimp only at h
      all_goals repeat' split at h
      all_goals
        first
        | exact (ih _ _ _ _ h).trans rfl
        | (rw [Prod.mk.injEq] at h; rw [← h.1])
        | skip

theorem step2go_len (mapFn : σ → T → Except Unit (σ × U)) (newItems : List T)
    (temp : List (Option U)) (tmps : List (Option Nat)) :
    ∀ (k i : Nat) (st st' : KSt T U σ),
      k + i = temp.length →
      step2go mapFn newItems temp tmps k i st = (st', .ok ()) →
      st'.mapped.length = st.mapped.length ∧ st'.scopes.length = st.scopes.length ∧
      (0 < k → temp.length ≤ st.mapped.length) := by
  intro k
  induction k with
  | zero =>
      intro i st st' hki h
      simp only [step2go, Prod.mk.injEq] at h
      rw [← h.1]
      exact ⟨rfl, rfl, by omega⟩
  | succ k ih =>
      intro i st st' hki h
      rw [step2go] at h
      repeat' split at h
      all_goals
        first
        | (rw [Prod.mk.injEq] at h; exact Except.noConfusion h.2)
        | omega
        | skip
      rename_i x3 u hget x2 mp hmp x1 sv hsv x0 sc hsc
      obtain ⟨p1, p2, p3⟩ := ih (i + 1) _ st' (by omega) h
      have lmp : mp.length = st.mapped.length := (setE_ok hmp).1
      have lsc : sc.length = st.scopes.length := (setE_ok hsc).1
      have him : i < st.mapped.length := (setE_ok hmp).2
      refine ⟨by rw [p1]; exact lmp, by rw [p2]; exact lsc, fun _ => ?_⟩
      rcases Nat.eq_zero_or_pos k with hk0 | hkp
      · omega
      · have := p3 hkp
        simp only [lmp] at this
        omega

theorem freshGo_items (mapFn : σ → T → Except Unit (σ × U)) :
    ∀ (l : List T) (st st' : KSt T U σ) (r : Except RErr Unit),
      freshGo mapFn l st = (st', r) → st'.items = st.items := by
  intro l
  induction l with
  | nil =>
      intro st st' r h
      simp only [freshGo, Prod.mk.injEq] at h
      rw [← h.1]
  | cons t ts ih =>
      intro st st' r h
      rw [freshGo] at h
      split at h
      · rw [Prod.mk.injEq] at h; rw [← h.1]
      · exact (ih _ _ _ h).trans rfl

theorem freshGo_len (mapFn : σ → T → Except Unit (σ × U)) :
    ∀ (l : List T) (st st' : KSt T U σ),
      freshGo mapFn l st = (st', .ok ()) →
      st'.mapped.length = st.mapped.length + l.length ∧
      st'.scopes.length = st.scopes.length + l.length := by
  intro l
  induction l with
  | nil =>
      intro st st' h
      simp only [freshGo, Prod.mk.injEq] at h
      rw [← h.1]
      exact ⟨rfl, rfl⟩
  | cons t ts ih =>
      intro st st' h
      rw [freshGo] at h
      split at h
      · rw [Prod.mk.injEq] at h; exact Except.noConfusion h.2
      · obtain ⟨p1, p2⟩ := ih _ _ h
        constructor
        · rw [p1]; simp; omega
        · rw [p2]; simp; omega

theorem idxGo_items [DecidableEq T] (mapFn : σ → T → Except Unit (σ × U)) (newItems : List T) :
    ∀ (k i : Nat) (st st' : ISt T U σ) (r : Except RErr Unit),
      idxGo mapFn newItems k i st = (st', r) → st'.items = st.items := by
  intro k
  induction k with
  | zero =>
      intro i st st' r h
      simp only [idxGo, Prod.mk.injEq] at h
      rw [← h.1]
  | succ k ih =>
      intro i st st' r h
      rw [idxGo] at h
      repeat' split at h
      all_goals try dsimp only at h
      all_goals repeat' split at h
      all_goals
        first
        | exact (ih _ _ _ _ h).trans rfl
        | (rw [Prod.mk.injEq] at h; rw [← h.1])
        | skip

theorem idxGo_len [DecidableEq T] (mapFn : σ → T → Except Unit (σ × U)) (newItems : List T) :
    ∀ (k i : Nat) (st st' : ISt T U σ),
      k + i = newItems.length →
      st.mapped.length = max st.items.length i →
      st.scopes.length = st.mapped.length →
      idxGo mapFn newItems k i st = (st', .ok ()) →
      st'.mapped.length = max st.items.length newItems.length ∧
      st'.scopes.length = st'.mapped.length := by
  intro k
  induction k with
  | zero =>
      intro i st st' hki hm hs h
      simp only [idxGo, Prod.mk.injEq] at h
      rw [← h.1]
      have hi : i = newItems.length := by omega
      subst hi
      exact ⟨hm, hs⟩
  | succ k ih =>
      intro i st st' hki hm hs h
      rw [idxGo] at h
      repeat' split at h
      all_goals try dsimp only at h
      all_goals repeat' split at h
      all_goals
        first
        | (rw [Prod.mk.injEq] at h; exact Except.noConfusion h.2)
        | skip
      -- fresh push arm (no previous item at index i)
      · rename_i x2 t hgt x1 hnone x0 s1 u hmf
        have hlen : st.items.length ≤ i := List.get?_eq_none.mp hnone
        have := ih (i + 1)
            { st with mapped := st.mapped ++ [u], scopes := st.scopes ++ [st.freshS],
                      mst := s1, freshS := st.freshS + 1 } st'
            (by omega)
            (by simp only [List.length_append, List.length_singleton]; omega)
            (by simp only [List.length_append, List.length_singleton]; omega)
            h
        exact this
      -- equal item arm (left untouched)
      · rename_i x1 t1 hgt x0 t hgi heq2
        obtain ⟨hw, _⟩ := List.get?_eq_some.mp hgi
        exact ih (i + 1) st st' (by omega) (by omega) hs h
      -- differing item arm (remap in place)
      · rename_i x4 t1 hgt x3 t hgi hne x2 s1 u hmf x1 mp hmp x0 sc hsc
        obtain ⟨hw, _⟩ := List.get?_eq_some.mp hgi
        have lmp := (setE_ok hmp).1
        have lsc := (setE_ok hsc).1
        have := ih (i + 1)
            { st with mst := s1, freshS := st.freshS + 1, mapped := mp, scopes := sc } st'
            (by omega) (by dsimp only; omega) (by dsimp only; omega) h
        exact this

theorem keyedStep_err_items [DecidableEq T] (mapFn : σ → T → Except Unit (σ × U))
    (st : KSt T U σ) (newItems : List T) (st' : KSt T U σ) (er : RErr)
    (h : keyedStep mapFn st newItems = (st', .error er)) : st'.items = st.items := by
  rw [keyedStep] at h
  dsimp only at h
  repeat' split at h
  all_goals try dsimp only at h
  all_goals repeat' split at h
  all_goals
    first
    | (rw [keyedFinish, Prod.mk.injEq] at h; exact Except.noConfusion h.2)
    | (rw [Prod.mk.injEq] at h; rw [← h.1])
    | skip
  -- the fast create path failed inside `map_fn`
  · rename_i x0 st1 er1 hfg
    exact freshGo_items mapFn newItems st st1 _ hfg
  -- step 2 failed (unwrap / out-of-bounds / map_fn)
  · rename_i x0 st1 er1 hs2
    exact (step2go_items mapFn newItems _ _ _ _ _ _ _ hs2).trans rfl

theorem indexedStep_err_items [DecidableEq T] (mapFn : σ → T → Except Unit (σ × U))
    (st : ISt T U σ) (newItems : List T) (st' : ISt T U σ) (er : RErr)
    (h : indexedStep mapFn st newItems = (st', .error er)) : st'.items = st.items := by
  rw [indexedStep] at h
  dsimp only at h
  repeat' split at h
  all_goals
    first
    | (rw [Prod.mk.injEq] at h; exact Except.noConfusion h.2)
    | skip
  rename_i x0 st1 er1 hig
  rw [Prod.mk.injEq] at h
  rw [← h.1]
  exact idxGo_items mapFn newItems _ _ _ _ _ hig

theorem indexedStep_ok [DecidableEq T] (mapFn : σ → T → Except Unit (σ × U))
    (st : ISt T U σ) (newItems : List T) (st' : ISt T U σ) (out : List U)
    (hwf : IWf st)
    (h : indexedStep mapFn st newItems = (st', .ok out)) :
    st'.items = newItems ∧ st'.mapped.length = newItems.length ∧
    st'.scopes.length = newItems.length ∧ out = st'.mapped := by
  obtain ⟨hwm, hws⟩ := hwf
  rw [indexedStep] at h
  dsimp only at h
  split at h
  · -- empty fast path
    rename_i hemp
    have hnil : newItems = [] := by
      cases newItems with
      | nil => rfl
      | cons a l => exact absurd hemp (by simp)
    rw [Prod.mk.injEq] at h
    obtain ⟨h1, h2⟩ := h
    rw [Except.ok.injEq] at h2
    subst hnil
    rw [← h1, ← h2]
    exact ⟨rfl, rfl, rfl, rfl⟩
  · -- general path
    split at h
    · rw [Prod.mk.injEq] at h; exact absurd h.2 (by simp)
    · rename_i x0 st1 hig
      have hit : st1.items = st.items := idxGo_items mapFn newItems _ _ _ _ _ hig
      have hlen := idxGo_len mapFn newItems newItems.length 0 st st1
        (by omega) (by omega) (by omega) hig
      obtain ⟨hl1, hl2⟩ := hlen
      rw [Prod.mk.injEq] at h
      obtain ⟨h1, h2⟩ := h
      rw [Except.ok.injEq] at h2
      rw [← h1, ← h2]
      split
      · rename_i hshort
        refine ⟨rfl, ?_, ?_, rfl⟩ <;>
          simp only [List.length_take, hl2, hl1, hit] <;> omega
      · rename_i hlong
        refine ⟨rfl, ?_, ?_, rfl⟩ <;>
          simp only [List.length_take, hl2, hl1, hit] <;> omega

theorem keyedStep_ok [DecidableEq T] (mapFn : σ → T → Except Unit (σ × U))
    (st : KSt T U σ) (newItems : List T) (st' : KSt T U σ) (out : List U)
    (hwf : KWf st)
    (h : keyedStep mapFn st newItems = (st', .ok out)) :
    st'.items = newItems ∧ st'.mapped.length = newItems.length ∧
    st'.scopes.length = newItems.length ∧ out = st'.mapped := by
  obtain ⟨hwm, hws⟩ := hwf
  rw [keyedStep] at h
  dsimp only at h
  split at h
  · -- empty fast path
    rename_i hemp
    have hnil : newItems = [] := by
      cases newItems with
      | nil => rfl
      | cons a l => exact absurd hemp (by simp)
    rw [keyedFinish, Prod.mk.injEq] at h
    obtain ⟨h1, h2⟩ := h
    rw [Except.ok.injEq] at h2
    subst hnil
    rw [← h1, ← h2]
    exact ⟨rfl, rfl, rfl, rfl⟩
  · split at h
    · -- fast create path (previous list empty)
      rename_i hemp hpe
      have holen : st.items.length = 0 := by
        cases hl : st.items with
        | nil => rfl
        | cons a l => rw [hl] at hpe; exact absurd hpe (by simp)
      split at h
      · rw [Prod.mk.injEq] at h; exact Except.noConfusion h.2
      · rename_i x0 st1 hfr
        obtain ⟨f1, f2⟩ := freshGo_len mapFn newItems st st1 hfr
        rw [keyedFinish, Prod.mk.injEq] at h
        obtain ⟨h1, h2⟩ := h
        rw [Except.ok.injEq] at h2
        rw [← h1, ← h2]
        refine ⟨rfl, ?_, ?_, rfl⟩ <;>
          simp only [List.length_take, f1, f2, hwm, hws, holen] <;> omega
    · -- general diff path
      rename_i hemp hpe
      have hstart := cs_le st.items newItems
      split at h
      · rw [Prod.mk.injEq] at h; exact Except.noConfusion h.2
      · rename_i x0 e ne temp1 tmps1 hsuf
        obtain ⟨t1len, t2len⟩ := suffixGo_pres st.items newItems st.mapped st.scopes
          (commonStart st.items newItems) _ _ _ _ _ _ _ _ hsuf
        rw [List.length_replicate] at t1len t2len
        split at h
        · rw [Prod.mk.injEq] at h; exact Except.noConfusion h.2
        · rename_i x1 ni nx hst0
          split at h
          · rw [Prod.mk.injEq] at h; exact Except.noConfusion h.2
          · rename_i x2 scopes1 temp2 tmps2 ni2 hst1
            have hsl : scopes1.length = st.scopes.length ∧ temp2.length = newItems.length ∧
                tmps2.length = newItems.length := by
              by_cases hlt : commonStart st.items newItems < e
              · rw [if_pos hlt] at hst1
                obtain ⟨p1, p2, p3⟩ :=
                  step1go_pres st.items st.mapped nx _ _ _ _ _ _ _ _ _ _ hst1
                exact ⟨p1, p2.trans t1len, p3.trans t2len⟩
              · rw [if_neg hlt] at hst1
                simp only [Prod.mk.injEq, Except.ok.injEq] at hst1
                refine ⟨?_, ?_, ?_⟩ <;> simp_all
            obtain ⟨sl1, sl2, sl3⟩ := hsl
            split at h
            · rw [Prod.mk.injEq] at h; exact Except.noConfusion h.2
            · rename_i x3 st1 hs2
              obtain ⟨m1, m2, m3⟩ := step2go_len mapFn newItems temp2 tmps2 _ _ _ _
                (by rw [sl2]; omega) hs2
              dsimp only at m1 m2 m3
              have hno : newItems.length ≤ st.items.length := by
                rcases Nat.eq_zero_or_pos
                    (newItems.length - commonStart st.items newItems) with h0 | hp
                · omega
                · have := m3 (by omega)
                  rw [sl2] at this
                  omega
              rw [keyedFinish, Prod.mk.injEq] at h
              obtain ⟨h1, h2⟩ := h
              rw [Except.ok.injEq] at h2
              rw [← h1, ← h2]
              refine ⟨rfl, ?_, ?_, rfl⟩
              · simp only [List.length_take, m1, hwm]
                omega
              · simp only [List.length_take, m2, sl1, hws]
                omega

theorem keyedStep_noop [DecidableEq T] (mapFn : σ → T → Except Unit (σ × U))
    (st : KSt T U σ) (h1 : st.items ≠ []) (hwf : KWf st) :
    keyedStep mapFn st st.items = (st, .ok st.mapped) := by
  obtain ⟨hwm, hws⟩ := hwf
  have hemp : ¬ (st.items.isEmpty = true) := by
    cases hl : st.items with
    | nil => exact absurd hl h1
    | cons a l => simp
  have h01 : ¬ st.items.length < st.items.length - 1 := by omega
  rw [keyedStep, if_neg hemp, if_neg hemp]
  dsimp only
  rw [cs_self]
  rw [suffixGo_stop _ _ _ _ _ _ _ _ _ h01]
  dsimp only
  rw [if_neg h01]
  dsimp only
  rw [if_neg h01]
  dsimp only
  rw [Nat.sub_self]
  rw [show (step2go mapFn st.items (List.replicate st.items.length none)
      (List.replicate st.items.length none) 0 st.items.length
      { st with scopes := st.scopes } : KSt T U σ × Except RErr Unit)
      = ({ st with scopes := st.scopes }, .ok ()) from rfl]
  simp only [keyedFinish]
  have e1 : st.mapped.take st.items.length = st.mapped := by
    rw [← hwm]; exact List.take_length st.mapped
  have e2 : st.scopes.take st.items.length = st.scopes := by
    rw [← hws]; exact List.take_length st.scopes
  rw [e1, e2]

/-!
## Claim theorems
-/

/-- C1: for every signal and every finite sequence of successful
`Signal::set` calls on it (with write-free subscriber callbacks), a
subsequent read — tracked `get` or `get_untracked` — returns exactly the
value supplied by the last write of the sequence. -/
theorem c1_last_write_read (env : Nat → CbK) (f s v : Nat) (vs : List Nat) (w w' : World)
    (henv : ∀ cb, writeFree (bodyOf (env cb)) = true)
    (h : setMany env f s (vs ++ [v]) w = .ok w') :
    (evalExpr (.getU s) w').2 = v ∧ (evalExpr (.getT s) w').2 = v ∧ w'.sigVal s = v := by
  have hv := setManyLast env henv vs v f s w w' h
  exact ⟨hv, hv, hv⟩

/-- Witness for C1: writes 1, 2, 3 on signal 0; both reads return 3. -/
theorem c1_last_write_read_w :
    (evalExpr (.getU 0) (storeVal 0 3 (storeVal 0 2 (storeVal 0 1 (World.init fun _ => 0))))).2 = 3 ∧
    (evalExpr (.getT 0) (storeVal 0 3 (storeVal 0 2 (storeVal 0 1 (World.init fun _ => 0))))).2 = 3 := by
  have := c1_last_write_read envP 5 0 3 [1, 2]
    (World.init fun _ => 0)
    (storeVal 0 3 (storeVal 0 2 (storeVal 0 1 (World.init fun _ => 0))))
    (fun cb => rfl) rfl
  exact ⟨this.1, this.2.1⟩

/-- C4: a successful `Signal::set` stores the new value, snapshots the
subscriber list at the moment of the store, and invokes each
snapshotted subscriber exactly once in subscription order (the trace
grows by exactly the snapshot, in list order), even though the
callbacks mutate subscriber lists while running; `subscribe`
deduplicates by identity and appends new subscribers at the end, so the
list order is the order of first read. -/
theorem c4_write_notification (env : Nat → CbK) (f s v : Nat) (w w' : World)
    (henv : ∀ cb, writeFree (bodyOf (env cb)) = true)
    (h : setSig env f s v w = .ok w') :
    w'.sigVal s = v ∧
    w'.trace = w.trace ++ (w.sigSubs s).map Ev.invoke ∧
    (∀ cb l, cb ∈ l → subOnce cb l = l) ∧
    (∀ cb l, cb ∉ l → subOnce cb l = l ++ [cb]) := by
  obtain ⟨a, _, _, d⟩ := setSigWF env henv f s v w w' h
  exact ⟨a, d, subOnce_mem, subOnce_not_mem⟩

/-- Witness for C4: a write on a signal with subscribers 5 and 7 stores
the value and invokes exactly those two callbacks in order. -/
theorem c4_write_notification_w :
    (pushEv (Ev.invoke 7) (pushEv (Ev.invoke 5) (storeVal 0 42 w14))).sigVal 0 = 42 ∧
    (pushEv (Ev.invoke 7) (pushEv (Ev.invoke 5) (storeVal 0 42 w14))).trace
      = w14.trace ++ (w14.sigSubs 0).map Ev.invoke := by
  have := c4_write_notification envP 10 0 42 w14
    (pushEv (Ev.invoke 7) (pushEv (Ev.invoke 5) (storeVal 0 42 w14)))
    (fun cb => rfl) rfl
  exact ⟨this.1, this.2.1⟩

/-- Counterexample to C5 as stated: a selector whose comparator always
answers "equal" (legal under `create_selector_with`).  Upstream signal 0
goes from 1 to 2, the derivation recomputes 2, but the new value is NOT
stored: the memo (signal 1) still holds 1 afterwards, contradicting
"the new value is stored as the selector's current value". -/
theorem c5_cex :
    (setSig env5 9 0 2 wsel).toOption.map (fun w => w.sigVal 1) = some 1 ∧
    ¬ ((setSig env5 9 0 2 wsel).toOption.map (fun w => w.sigVal 1) = some 2) := by
  exact ⟨rfl, by decide⟩

/-- C5 amended: on each upstream notification the selector's re-run
closure runs the derivation exactly once (one `derive` event); if the
comparator applied to the memo's current value and the new output
answers true, the new value is DISCARDED — the memo keeps its previous
value and no subscriber is invoked; if it answers false, the new value
is stored and each subscriber of the snapshot is invoked once
(write-free subscribers).  `create_selector` instantiates the
comparator with native equality. -/
theorem c5_selector_amended (env : Nat → CbK) (comp : Nat → Nat → Bool) (m : Nat)
    (e : Expr) (w : World) (f : Nat) :
    (comp ((evalExpr e (pushEv (.derive m) w)).1.sigVal m)
        (evalExpr e (pushEv (.derive m) w)).2 = true →
      exec env (f + 1) (.code (.selUpdate comp m e)) w
          = .ok (evalExpr e (pushEv (.derive m) w)).1 ∧
      (evalExpr e (pushEv (.derive m) w)).1.sigVal m = w.sigVal m ∧
      (evalExpr e (pushEv (.derive m) w)).1.trace = w.trace ++ [.derive m]) ∧
    ((∀ cb, writeFree (bodyOf (env cb)) = true) →
      ∀ w', comp ((evalExpr e (pushEv (.derive m) w)).1.sigVal m)
          (evalExpr e (pushEv (.derive m) w)).2 = false →
        exec env (f + 1) (.code (.selUpdate comp m e)) w = .ok w' →
        w'.sigVal m = (evalExpr e (pushEv (.derive m) w)).2 ∧
        w'.trace = w.trace ++ [.derive m] ++ (w.sigSubs m).map Ev.invoke) := by
  obtain ⟨f1, f2, f3, f4, f5⟩ := evalExpr_frame e (pushEv (.derive m) w)
  constructor
  · intro hc
    refine ⟨?_, ?_, ?_⟩
    · simp only [exec]
      rw [if_pos hc]
    · rw [f1]; rfl
    · rw [f5]; rfl
  · intro henv w' hc h
    simp only [exec] at h
    rw [if_neg (by rw [hc]; simp)] at h
    obtain ⟨a, _, _, d⟩ :=
      setSigWF env henv f m (evalExpr e (pushEv (.derive m) w)).2
        (evalExpr e (pushEv (.derive m) w)).1 w' h
    refine ⟨a, ?_⟩
    rw [d, f5, f2]
    show w.trace ++ [Ev.derive m] ++ ((pushEv (.derive m) w).sigSubs m).map Ev.invoke = _
    rfl

/-- Witness for C5 (equal branch of the amended claim, at the
counterexample's selector): the comparator answers true, the run keeps
the memo's value and appends exactly one `derive` event. -/
theorem c5_selector_amended_w :
    exec env5 4 (.code (.selUpdate (fun _ _ => true) 1 (.getT 0))) wsel
      = .ok (evalExpr (.getT 0) (pushEv (.derive 1) wsel)).1 ∧
    (evalExpr (.getT 0) (pushEv (.derive 1) wsel)).1.sigVal 1 = wsel.sigVal 1 := by
  have := (c5_selector_amended env5 (fun _ _ => true) 1 (.getT 0) wsel 3).1 rfl
  exact ⟨this.1, this.2.1⟩

/-- C2 evidence (code bug): the `effect_should_recreate_dependencies`
scenario.  After the run in which the condition became false — a run
that read only `condition` (signal 0) and `state2` (signal 2) — the
claim demands that the callback has been removed from `state1`'s
(signal 1) subscriber list.  Instead the inverted `unsubscribe` filter
kept it there, so the counter (signal 3) is 3 and `state1`'s
subscribers are still `[10]`; the subsequent `state1.set(2)` then
re-runs the effect and drives the counter to 4, where the claim (and
the source's own test) demand it stay 3. -/
theorem c2_conditional_dependency_bug :
    c2mid.toOption.map (fun w => (w.sigVal 3, w.sigSubs 1, w.sigSubs 2)) =
      some (3, [10], [10]) ∧
    c2final.toOption.map (fun w => w.sigVal 3) = some 4 := by
  exact ⟨rfl, rfl⟩

/-- C3 evidence (code bug): creating the cyclic effect
(`state.set(state.get() + 1)` on signal 0) terminates — its first run
stores 1 and subscribes callback 10 — but the subsequent top-level
`state.set(1)` NEVER terminates: for every fuel the interpreter runs
out (`Err.fuelOut`), i.e. the source recursion is unbounded, and the
explicit `"cannot create cyclic dependency"` panic (`Err.cyclic`) is
never raised. -/
theorem c3_cyclic_write_diverges :
    ∃ w1, createEffect env3 9 10 (World.init fun _ => 0) = .ok w1 ∧
      w1.sigVal 0 = 1 ∧ w1.sigSubs 0 = [10] ∧
      ∀ f, setSig env3 f 0 1 w1 = .error .fuelOut := by
  refine ⟨_, rfl, rfl, rfl, ?_⟩
  intro f
  match f with
  | 0 => rfl
  | g + 1 =>
    show exec env3 (g + 1) (.setv 0 1) _ = .error .fuelOut
    simp only [exec]
    rw [if_neg (by decide)]
    match g with
    | 0 => rfl
    | k + 1 =>
      simp only [exec]
      rw [env3_diverges k _ rfl rfl]

/-- C6 evidence (code bug): with the shared incrementing-counter
mapper, the initial update maps `[1,2,3]` to `[1,2,3]`, but the append
update to `[1,2,3,4]` PANICS instead of returning `[1,2,3,4]`: the
pull-branch guard `temp.get(i).is_some()` only tests that `i` is within
bounds (always true), so slot 3 executes `temp[3].clone().unwrap()` on
`None` (`RErr.unwrapNone`).  The captured outputs survive as `[1,2,3]`.
(In a debug build the out-of-bounds `debug_assert!` at the prefix skip
would already abort.) -/
theorem c6_append_panics :
    (keyedStep cntMap kstEmpty [1, 2, 3]).2 = .ok [1, 2, 3] ∧
    (keyedStep cntMap (keyedStep cntMap kstEmpty [1, 2, 3]).1 [1, 2, 3, 4]).2
      = .error .unwrapNone ∧
    (keyedStep cntMap (keyedStep cntMap kstEmpty [1, 2, 3]).1 [1, 2, 3, 4]).1.mapped
      = [1, 2, 3] := by
  exact ⟨rfl, rfl, rfl⟩

/-- C7 evidence (code bug): the claimed sequence [1,2,3] → [1,2] →
[1,2,4] → [1,2,3,4] already dies at the THIRD update: [1,2,3] yields
[1,2,3] and [1,2] yields [1,2], but updating to [1,2,4] panics
(`temp[2].clone().unwrap()` on `None`) instead of producing [1,2,4], so
the claimed final outputs [1,2,5,4] are never reached. -/
theorem c7_sequence_panics :
    (keyedStep cntMap kstEmpty [1, 2, 3]).2 = .ok [1, 2, 3] ∧
    (keyedStep cntMap (keyedStep cntMap kstEmpty [1, 2, 3]).1 [1, 2]).2 = .ok [1, 2] ∧
    (keyedStep cntMap
        (keyedStep cntMap (keyedStep cntMap kstEmpty [1, 2, 3]).1 [1, 2]).1
        [1, 2, 4]).2 = .error .unwrapNone := by
  exact ⟨rfl, rfl, rfl⟩

/-- C8: keyed reconciliation is idempotent under a no-op update: for
every non-empty well-formed baseline, re-feeding the identical sequence
returns the same outputs and leaves the whole captured state unchanged —
same baseline, same outputs, same scopes (same identities, none
disposed or recreated), same mapping-function state (no mapping call)
and same scope allocator. -/
theorem c8_noop_idempotent [DecidableEq T] (mapFn : σ → T → Except Unit (σ × U))
    (st : KSt T U σ) (h1 : st.items ≠ []) (hwf : KWf st) :
    keyedStep mapFn st st.items = (st, .ok st.mapped) :=
  keyedStep_noop mapFn st h1 hwf

/-- Witness for C8 at a concrete two-element state. -/
theorem c8_noop_idempotent_w :
    keyedStep cntMap (⟨[5, 6], [1, 2], [some 0, some 1], 2, 2⟩ : KSt Nat Nat Nat) [5, 6]
      = (⟨[5, 6], [1, 2], [some 0, some 1], 2, 2⟩, .ok [1, 2]) :=
  c8_noop_idempotent cntMap ⟨[5, 6], [1, 2], [some 0, some 1], 2, 2⟩
    (by decide) ⟨rfl, rfl⟩

/-- Counterexample to C9 as stated: a mapping function failing on item
2, run from the empty baseline on `[1, 2]`.  The failure propagates as
the step's result and the baseline `items` is untouched — but the
mapped-outputs array is NOT: the first item's output was already
pushed, so the "previous-state arrays (baseline items, mapped outputs,
scopes)" are not all uncorrupted. -/
theorem c9_cex :
    (keyedStep failMap kstEmpty [1, 2]).2 = .error .mapFail ∧
    (keyedStep failMap kstEmpty [1, 2]).1.items = kstEmpty.items ∧
    ¬ ((keyedStep failMap kstEmpty [1, 2]).1.mapped = kstEmpty.mapped) := by
  exact ⟨rfl, rfl, by decide⟩

/-- C9 amended: when the mapping function (or the reconciler itself)
fails during an update, the failure propagates to the immediate caller
as the step's result, and the BASELINE items array is only overwritten
after the whole update succeeds — on failure the previous baseline is
retained, for both the keyed and the indexed reconciler.  (The
mapped-outputs and scopes arrays may retain partial updates of the
failed run.) -/
theorem c9_amended_baseline [DecidableEq T] (mapFn : σ → T → Except Unit (σ × U))
    (stK stK' : KSt T U σ) (stI stI' : ISt T U σ) (newItems : List T) (er er2 : RErr) :
    (keyedStep mapFn stK newItems = (stK', .error er) → stK'.items = stK.items) ∧
    (indexedStep mapFn stI newItems = (stI', .error er2) → stI'.items = stI.items) :=
  ⟨fun h => keyedStep_err_items mapFn stK newItems stK' er h,
   fun h => indexedStep_err_items mapFn stI newItems stI' er2 h⟩

/-- Witness for C9 (amended) at the counterexample's failing run. -/
theorem c9_amended_baseline_w :
    (keyedStep failMap kstEmpty [1, 2]).1.items = kstEmpty.items :=
  (c9_amended_baseline failMap kstEmpty (keyedStep failMap kstEmpty [1, 2]).1
    istEmpty istEmpty [1, 2] .mapFail .mapFail).1 rfl

/-- C10: after every completed (non-panicking) update of either
reconciler from a well-formed state (the three parallel arrays of equal
length, true of every reachable state), the saved baseline equals the
new input and all three arrays have length exactly the new input's
length, and the returned output vector is exactly the mapped array. -/
theorem c10_parallel_invariant :
    (∀ (T U σ : Type) (_ : DecidableEq T) (mapFn : σ → T → Except Unit (σ × U))
        (st st' : KSt T U σ) (newItems : List T) (out : List U),
      KWf st → keyedStep mapFn st newItems = (st', .ok out) →
      st'.items = newItems ∧ st'.mapped.length = newItems.length ∧
      st'.scopes.length = newItems.length ∧ out = st'.mapped) ∧
    (∀ (T U σ : Type) (_ : DecidableEq T) (mapFn : σ → T → Except Unit (σ × U))
        (st st' : ISt T U σ) (newItems : List T) (out : List U),
      IWf st → indexedStep mapFn st newItems = (st', .ok out) →
      st'.items = newItems ∧ st'.mapped.length = newItems.length ∧
      st'.scopes.length = newItems.length ∧ out = st'.mapped) :=
  ⟨fun _ _ _ _ mapFn st st' newItems out hwf h =>
      keyedStep_ok mapFn st newItems st' out hwf h,
   fun _ _ _ _ mapFn st st' newItems out hwf h =>
      indexedStep_ok mapFn st newItems st' out hwf h⟩

/-- Witness for C10 at a concrete fresh-create update. -/
theorem c10_parallel_invariant_w :
    (⟨[5], [1], [some 0], 1, 1⟩ : KSt Nat Nat Nat).items = [5] ∧
    (⟨[5], [1], [some 0], 1, 1⟩ : KSt Nat Nat Nat).mapped.length = 1 ∧
    (⟨[5], [1], [some 0], 1, 1⟩ : KSt Nat Nat Nat).scopes.length = 1 ∧
    ([1] : List Nat) = (⟨[5], [1], [some 0], 1, 1⟩ : KSt Nat Nat Nat).mapped := by
  have := c10_parallel_invariant.1 Nat Nat Nat inferInstance cntMap kstEmpty
    ⟨[5], [1], [some 0], 1, 1⟩ [5] [1] ⟨rfl, rfl⟩ rfl
  exact this
